/-
  Verification of the financial indicator core of
  `datafusion-functions-financial` (SMA / EMA / RSI / MACD batch
  partition evaluators, the streaming incremental calculator and the
  signal detector) against its natural-language specification.

  Shallow embedding conventions:
  * `f64` arithmetic is modelled exactly over `ℚ`.  Every claim settled
    here concerns either exact equality of two computations that perform
    the same sequence of arithmetic operations, or values (thresholds,
    small test vectors) that are exactly representable, so the rational
    model is faithful for them.
  * An Arrow `Float64Array` is a `List (Option ℚ)`; `value(i)` on a null
    slot reads the zeroed backing buffer, i.e. returns `0` (arrays built
    from `Vec<Option<f64>>` store `0.0` in null slots).
  * In the Rust source each per-row branch is
    `if let Some(value) = value_array.value(i).into()`.  Since
    `value(i) : f64` and `f64 : Into<Option<f64>>` via the blanket
    `From<T> for Option<T>`, the scrutinee is always `Some`, so the
    `else` branch pushing a null output is dead code; the embedding
    therefore reads every slot through `arrowValue`.
  * `usize` casts of `i64` (`as usize`) wrap modulo 2^64.
  * Fallible evaluator entry points return `Except String`.  The
    dynamic arity / downcast checks of `evaluate_all` (argument count,
    column types) are made unrepresentable by the typed signature and
    are not modelled.
  * Strings, timestamps and symbols carried through tick records and
    signals are irrelevant to every claim and are omitted from the
    embedded records.
-/
import Mathlib

deriving instance DecidableEq for Except

namespace DFF

/-- `Float64Array::value(i)`: a null slot reads the zeroed data buffer. -/
def arrowValue (o : Option ℚ) : ℚ := o.getD 0

/-- Rust `as usize` applied to an `i64`: two's-complement wrap modulo 2^64. -/
def i64AsUsize (w : ℤ) : ℕ := (w % (2 ^ 64 : ℤ)).toNat

/-- `window_size_array.iter().find_map(|x| x)`: first non-null entry. -/
def findWindow (windows : List (Option ℤ)) : Option ℤ := windows.findSome? id

/- ## SMA batch partition evaluator (src/functions/sma.rs) -/

/-- State of `SmaPartitionEvaluator`. -/
structure SmaPartitionEvaluator where
  values : List ℚ
  window_size : ℕ
deriving DecidableEq

/-- `SmaPartitionEvaluator::new()`. -/
def SmaPartitionEvaluator.new : SmaPartitionEvaluator := ⟨[], 0⟩

/-- One iteration of the `for i in 0..num_rows` loop of
`SmaPartitionEvaluator::evaluate_all` (sma.rs:102-117): push the row's
value, then if at least `window_size` values have been seen emit the mean
of the trailing `window_size` values (`saturating_sub` is `ℕ`
subtraction), else emit null. -/
def smaStep (ws : ℕ) (values : List ℚ) (slot : Option ℚ) :
    List ℚ × Option ℚ :=
  let value := arrowValue slot
  let values' := values ++ [value]
  if ws ≤ values'.length then
    let start_idx := values'.length - ws
    let window_sum := (values'.drop start_idx).sum
    (values', some (window_sum / (ws : ℚ)))
  else
    (values', none)

/-- The whole row loop of `SmaPartitionEvaluator::evaluate_all`,
threading the `values` buffer and accumulating `result`. -/
def smaLoop (ws : ℕ) (values : List ℚ) :
    List (Option ℚ) → List ℚ × List (Option ℚ)
  | [] => (values, [])
  | slot :: rest =>
    let s := smaStep ws values slot
    let r := smaLoop ws s.1 rest
    (r.1, s.2 :: r.2)

/-- `SmaPartitionEvaluator::evaluate_all` (sma.rs:66-120): read the
window size from the first non-null entry of the window column (error if
all null, before any state mutation), clear the `values` buffer, run the
row loop. -/
def SmaPartitionEvaluator.evaluate_all (s : SmaPartitionEvaluator)
    (value_array : List (Option ℚ)) (window_size_array : List (Option ℤ)) :
    SmaPartitionEvaluator × Except String (List (Option ℚ)) :=
  match findWindow window_size_array with
  | none => (s, .error "Window size cannot be null")
  | some w =>
    let ws := i64AsUsize w
    let r := smaLoop ws [] value_array
    (⟨r.1, ws⟩, .ok r.2)

/- ## EMA batch partition evaluator (src/functions/ema.rs) -/

/-- State of `EmaPartitionEvaluator`. -/
structure EmaPartitionEvaluator where
  window_size : ℕ
  alpha : ℚ
  current_ema : Option ℚ
deriving DecidableEq

/-- `EmaPartitionEvaluator::new()`. -/
def EmaPartitionEvaluator.new : EmaPartitionEvaluator := ⟨0, 0, none⟩

/-- One iteration of the row loop of `EmaPartitionEvaluator::evaluate_all`
(ema.rs:107-125): the first value seeds the EMA, later values apply
`alpha * value + (1 - alpha) * prev_ema`. -/
def emaStep (alpha : ℚ) (cur : Option ℚ) (slot : Option ℚ) :
    Option ℚ × Option ℚ :=
  let value := arrowValue slot
  match cur with
  | none => (some value, some value)
  | some prev_ema =>
    let new_ema := alpha * value + (1 - alpha) * prev_ema
    (some new_ema, some new_ema)

/-- The whole row loop of `EmaPartitionEvaluator::evaluate_all`. -/
def emaLoop (alpha : ℚ) (cur : Option ℚ) :
    List (Option ℚ) → Option ℚ × List (Option ℚ)
  | [] => (cur, [])
  | slot :: rest =>
    let s := emaStep alpha cur slot
    let r := emaLoop alpha s.1 rest
    (r.1, s.2 :: r.2)

/-- `EmaPartitionEvaluator::evaluate_all` (ema.rs:68-128): read the window
size from the first non-null entry (error if all null, before any state
mutation), set `alpha = 2 / (N + 1)`, reset `current_ema`, run the loop. -/
def EmaPartitionEvaluator.evaluate_all (s : EmaPartitionEvaluator)
    (value_array : List (Option ℚ)) (window_size_array : List (Option ℤ)) :
    EmaPartitionEvaluator × Except String (List (Option ℚ)) :=
  match findWindow window_size_array with
  | none => (s, .error "Window size cannot be null")
  | some w =>
    let ws := i64AsUsize w
    let alpha := 2 / ((ws : ℚ) + 1)
    let r := emaLoop alpha none value_array
    (⟨ws, alpha, r.1⟩, .ok r.2)

/- ## RSI batch partition evaluator (src/functions/rsi.rs) -/

/-- State of `RsiPartitionEvaluator`. -/
structure RsiPartitionEvaluator where
  window_size : ℕ
  values : List ℚ
  gains : List ℚ
  losses : List ℚ
  avg_gain : ℚ
  avg_loss : ℚ
deriving DecidableEq

/-- `RsiPartitionEvaluator::new()`. -/
def RsiPartitionEvaluator.new : RsiPartitionEvaluator := ⟨0, [], [], [], 0, 0⟩

/-- `RsiPartitionEvaluator::calculate_rsi` (rsi.rs:72-78): 100 exactly
when the average loss is exactly 0, else `100 - 100 / (1 + rs)`. -/
def calculate_rsi (avg_gain avg_loss : ℚ) : ℚ :=
  if avg_loss = 0 then 100
  else
    let rs := avg_gain / avg_loss
    100 - (100 / (1 + rs))

/-- Loop-carried mutable fields of `RsiPartitionEvaluator::evaluate_all`. -/
structure RsiLoopState where
  values : List ℚ
  gains : List ℚ
  losses : List ℚ
  avg_gain : ℚ
  avg_loss : ℚ
deriving DecidableEq

/-- One iteration of the row loop of `RsiPartitionEvaluator::evaluate_all`
(rsi.rs:120-162): push the value; the first value yields null; otherwise
push gain/loss of the delta; null while fewer than `window_size` deltas;
at exactly `window_size` deltas seed the averages with simple means; after
that apply Wilder smoothing with `alpha = 1 / window_size`.
`prev_value = values[len - 2]` is read with `getD`; the index is in range
because the length is at least 2 in that branch. -/
def rsiStep (ws : ℕ) (s : RsiLoopState) (slot : Option ℚ) :
    RsiLoopState × Option ℚ :=
  let current_value := arrowValue slot
  let values' := s.values ++ [current_value]
  if values'.length = 1 then
    ({ s with values := values' }, none)
  else
    let prev_value := values'.getD (values'.length - 2) 0
    let change := current_value - prev_value
    let gain := if 0 < change then change else 0
    let loss := if change < 0 then -change else 0
    let gains' := s.gains ++ [gain]
    let losses' := s.losses ++ [loss]
    if gains'.length < ws then
      (⟨values', gains', losses', s.avg_gain, s.avg_loss⟩, none)
    else
      let avg_gain' :=
        if gains'.length = ws then gains'.sum / (ws : ℚ)
        else s.avg_gain * (1 - 1 / (ws : ℚ)) + gain * (1 / (ws : ℚ))
      let avg_loss' :=
        if gains'.length = ws then losses'.sum / (ws : ℚ)
        else s.avg_loss * (1 - 1 / (ws : ℚ)) + loss * (1 / (ws : ℚ))
      (⟨values', gains', losses', avg_gain', avg_loss'⟩,
        some (calculate_rsi avg_gain' avg_loss'))

/-- The whole row loop of `RsiPartitionEvaluator::evaluate_all`. -/
def rsiLoop (ws : ℕ) (s : RsiLoopState) :
    List (Option ℚ) → RsiLoopState × List (Option ℚ)
  | [] => (s, [])
  | slot :: rest =>
    let p := rsiStep ws s slot
    let r := rsiLoop ws p.1 rest
    (r.1, p.2 :: r.2)

/-- `RsiPartitionEvaluator::evaluate_all` (rsi.rs:82-165): read the window
size from the first non-null entry (error if all null, before any state
mutation), clear `values`, `gains` and `losses` (the `avg_gain` and
`avg_loss` fields are NOT cleared), run the loop. -/
def RsiPartitionEvaluator.evaluate_all (s : RsiPartitionEvaluator)
    (value_array : List (Option ℚ)) (window_size_array : List (Option ℤ)) :
    RsiPartitionEvaluator × Except String (List (Option ℚ)) :=
  match findWindow window_size_array with
  | none => (s, .error "Window size cannot be null")
  | some w =>
    let ws := i64AsUsize w
    let r := rsiLoop ws ⟨[], [], [], s.avg_gain, s.avg_loss⟩ value_array
    (⟨ws, r.1.values, r.1.gains, r.1.losses, r.1.avg_gain, r.1.avg_loss⟩,
      .ok r.2)

/- ## MACD batch partition evaluator (src/functions/macd.rs) -/

/-- State of `MacdPartitionEvaluator`. -/
structure MacdPartitionEvaluator where
  ema12 : Option ℚ
  ema26 : Option ℚ
  alpha12 : ℚ
  alpha26 : ℚ
deriving DecidableEq

/-- `MacdPartitionEvaluator::new()`: `alpha12 = 2/13`, `alpha26 = 2/27`. -/
def MacdPartitionEvaluator.new : MacdPartitionEvaluator :=
  ⟨none, none, 2 / 13, 2 / 27⟩

/-- `MacdPartitionEvaluator::update_ema` (macd.rs:68-86): update both EMAs
(seed on first value) and return `ema12 - ema26`. -/
def MacdPartitionEvaluator.update_ema (s : MacdPartitionEvaluator)
    (value : ℚ) : MacdPartitionEvaluator × Option ℚ :=
  let ema12' := match s.ema12 with
    | none => some value
    | some prev_ema => some (s.alpha12 * value + (1 - s.alpha12) * prev_ema)
  let ema26' := match s.ema26 with
    | none => some value
    | some prev_ema => some (s.alpha26 * value + (1 - s.alpha26) * prev_ema)
  let macd := match ema12', ema26' with
    | some e12, some e26 => some (e12 - e26)
    | _, _ => none
  (⟨ema12', ema26', s.alpha12, s.alpha26⟩, macd)

/-- The row loop of `MacdPartitionEvaluator::evaluate_all`. -/
def macdLoop (s : MacdPartitionEvaluator) :
    List (Option ℚ) → MacdPartitionEvaluator × List (Option ℚ)
  | [] => (s, [])
  | slot :: rest =>
    let p := s.update_ema (arrowValue slot)
    let r := macdLoop p.1 rest
    (r.1, p.2 :: r.2)

/-- `MacdPartitionEvaluator::evaluate_all` (macd.rs:89-120): unlike the
other evaluators it performs NO reset of `ema12` / `ema26` before the row
loop. -/
def MacdPartitionEvaluator.evaluate_all (s : MacdPartitionEvaluator)
    (value_array : List (Option ℚ)) :
    MacdPartitionEvaluator × Except String (List (Option ℚ)) :=
  let r := macdLoop s value_array
  (r.1, .ok r.2)

/- ## Streaming incremental calculator (src/streaming.rs) -/

/-- `MarketTick` (streaming.rs:14-22); symbol, timestamp, bid and ask are
irrelevant to every claim and omitted. -/
structure MarketTick where
  price : ℚ
  volume : ℕ
deriving DecidableEq

/-- `StreamingIndicatorValues` (streaming.rs:164-175); symbol and
timestamp omitted. -/
structure StreamingIndicatorValues where
  price : ℚ
  volume : ℕ
  sma : Option ℚ
  ema : Option ℚ
  rsi : Option ℚ
  volume_sma : Option ℚ
  volume_ratio : Option ℚ
deriving DecidableEq

/-- State of `StreamingIndicators` (streaming.rs:25-36); the unused
`_symbol` and `_sma_buffer` fields are omitted.  Deques are lists with
the head at the front. -/
structure StreamingIndicators where
  window_size : ℕ
  prices : List ℚ
  volumes : List ℕ
  ema_value : Option ℚ
  rsi_gains : List ℚ
  rsi_losses : List ℚ
  rsi_avg_gain : ℚ
  rsi_avg_loss : ℚ
deriving DecidableEq

/-- `StreamingIndicators::new` (streaming.rs:40-53). -/
def StreamingIndicators.new (window_size : ℕ) : StreamingIndicators :=
  ⟨window_size, [], [], none, [], [], 0, 0⟩

/-- `StreamingIndicators::calculate_sma` (streaming.rs:86-93): null while
fewer than `window_size` prices are buffered, else the mean of the
buffer (divided by its length). -/
def StreamingIndicators.calculate_sma (s : StreamingIndicators) : Option ℚ :=
  if s.prices.length < s.window_size then none
  else some (s.prices.sum / (s.prices.length : ℚ))

/-- `StreamingIndicators::calculate_ema` (streaming.rs:95-109): same
recurrence as the batch EMA, `alpha = 2 / (window_size + 1)`.  Returns
the updated `ema_value` and the emitted value. -/
def StreamingIndicators.calculate_ema (s : StreamingIndicators)
    (current_price : ℚ) : Option ℚ × Option ℚ :=
  let alpha := 2 / ((s.window_size : ℚ) + 1)
  match s.ema_value with
  | none => (some current_price, some current_price)
  | some prev_ema =>
    let new_ema := alpha * current_price + (1 - alpha) * prev_ema
    (some new_ema, some new_ema)

/-- Result of one `StreamingIndicators::calculate_rsi` call: the updated
gain/loss deques and averages plus the emitted value. -/
structure RsiStreamResult where
  rsi_gains : List ℚ
  rsi_losses : List ℚ
  rsi_avg_gain : ℚ
  rsi_avg_loss : ℚ
  out : Option ℚ
deriving DecidableEq

/-- `StreamingIndicators::calculate_rsi` (streaming.rs:111-151), called
after the price deque was updated: null with fewer than two buffered
prices; push gain/loss of the delta, capping the deques at
`window_size`; null while fewer than `window_size` deltas; then — unlike
the batch evaluator — re-seed with simple averages whenever the stored
`rsi_avg_gain` is exactly 0, else Wilder smoothing; finally the RSI
formula (100 exactly on zero average loss). -/
def StreamingIndicators.calculate_rsi (s : StreamingIndicators)
    (current_price : ℚ) : RsiStreamResult :=
  if s.prices.length < 2 then
    ⟨s.rsi_gains, s.rsi_losses, s.rsi_avg_gain, s.rsi_avg_loss, none⟩
  else
    let prev_price := s.prices.getD (s.prices.length - 2) 0
    let change := current_price - prev_price
    let gain := if 0 < change then change else 0
    let loss := if change < 0 then -change else 0
    let gains₁ := s.rsi_gains ++ [gain]
    let losses₁ := s.rsi_losses ++ [loss]
    let gains₂ := if s.window_size < gains₁.length then gains₁.drop 1 else gains₁
    let losses₂ := if s.window_size < gains₁.length then losses₁.drop 1 else losses₁
    if gains₂.length < s.window_size then
      ⟨gains₂, losses₂, s.rsi_avg_gain, s.rsi_avg_loss, none⟩
    else
      let avg_gain' :=
        if gains₂.length = s.window_size ∧ s.rsi_avg_gain = 0 then
          gains₂.sum / (s.window_size : ℚ)
        else s.rsi_avg_gain * (1 - 1 / (s.window_size : ℚ)) +
          gain * (1 / (s.window_size : ℚ))
      let avg_loss' :=
        if gains₂.length = s.window_size ∧ s.rsi_avg_gain = 0 then
          losses₂.sum / (s.window_size : ℚ)
        else s.rsi_avg_loss * (1 - 1 / (s.window_size : ℚ)) +
          loss * (1 / (s.window_size : ℚ))
      let out :=
        if avg_loss' = 0 then some 100
        else some (100 - (100 / (1 + avg_gain' / avg_loss')))
      ⟨gains₂, losses₂, avg_gain', avg_loss', out⟩

/-- `StreamingIndicators::calculate_volume_sma` (streaming.rs:153-160). -/
def StreamingIndicators.calculate_volume_sma (s : StreamingIndicators) :
    Option ℚ :=
  if s.volumes.length < s.window_size then none
  else some ((s.volumes.sum : ℚ) / (s.volumes.length : ℚ))

/-- `StreamingIndicators::update` (streaming.rs:56-84): push price and
volume, evict the oldest pair once the deque exceeds `window_size`, then
compute all indicators on the updated buffers. -/
def StreamingIndicators.update (s : StreamingIndicators)
    (tick : MarketTick) : StreamingIndicators × StreamingIndicatorValues :=
  let prices₁ := s.prices ++ [tick.price]
  let volumes₁ := s.volumes ++ [tick.volume]
  let prices₂ := if s.window_size < prices₁.length then prices₁.drop 1 else prices₁
  let volumes₂ := if s.window_size < prices₁.length then volumes₁.drop 1 else volumes₁
  let s₁ : StreamingIndicators :=
    { s with prices := prices₂, volumes := volumes₂ }
  let sma := s₁.calculate_sma
  let emaR := s₁.calculate_ema tick.price
  let s₂ := { s₁ with ema_value := emaR.1 }
  let rsiR := s₂.calculate_rsi tick.price
  let s₃ := { s₂ with rsi_gains := rsiR.rsi_gains, rsi_losses := rsiR.rsi_losses,
                      rsi_avg_gain := rsiR.rsi_avg_gain,
                      rsi_avg_loss := rsiR.rsi_avg_loss }
  let volume_sma := s₃.calculate_volume_sma
  (s₃,
    { price := tick.price
      volume := tick.volume
      sma := sma
      ema := emaR.2
      rsi := rsiR.out
      volume_sma := volume_sma
      volume_ratio := volume_sma.map (fun vs => (tick.volume : ℚ) / vs) })

/-- Feeding a list of ticks one at a time through `update`, collecting
the per-tick snapshots. -/
def streamRun (s : StreamingIndicators) :
    List MarketTick → StreamingIndicators × List StreamingIndicatorValues
  | [] => (s, [])
  | t :: rest =>
    let p := s.update t
    let r := streamRun p.1 rest
    (r.1, p.2 :: r.2)

/- ## Signal detector (src/streaming.rs:178-256) -/

/-- `SignalType` (streaming.rs:260-267). -/
inductive SignalType where
  | Oversold
  | Overbought
  | VolumeSpike
  | BullishCrossover
  | BearishCrossover
  | PriceBreakout
deriving DecidableEq

/-- `TradingSignal` (streaming.rs:271-278); symbol, timestamp and the
formatted description are omitted. -/
structure TradingSignal where
  signal_type : SignalType
  strength : ℚ
  price : ℚ
deriving DecidableEq

/-- `StreamingSignalDetector::detect_signals` (streaming.rs:188-255):
RSI threshold rules, then the volume-spike rule (note: no clamp on its
strength), then the EMA/SMA crossover rules with a 0.2 % dead band and a
strength clamped by `min 1`. -/
def detect_signals (ind : StreamingIndicatorValues) : List TradingSignal :=
  let rsiSignals : List TradingSignal :=
    match ind.rsi with
    | some rsi =>
      if rsi < 30 then
        [⟨.Oversold, (30 - rsi) / 30, ind.price⟩]
      else if 70 < rsi then
        [⟨.Overbought, (rsi - 70) / 30, ind.price⟩]
      else []
    | none => []
  let volumeSignals : List TradingSignal :=
    match ind.volume_ratio with
    | some volume_ratio =>
      if 2 < volume_ratio then
        [⟨.VolumeSpike, (volume_ratio - 2) / 3, ind.price⟩]
      else []
    | none => []
  let crossoverSignals : List TradingSignal :=
    match ind.sma, ind.ema with
    | some sma, some ema =>
      let crossover_strength := |(ema - sma) / sma|
      if sma * (1002 / 1000) < ema then
        [⟨.BullishCrossover, min crossover_strength 1, ind.price⟩]
      else if ema < sma * (998 / 1000) then
        [⟨.BearishCrossover, min crossover_strength 1, ind.price⟩]
      else []
    | _, _ => []
  rsiSignals ++ volumeSignals ++ crossoverSignals

/- ## Specification-side definitions

The following definitions transcribe the recurrences as the
specification states them (independent of the imperative loops above);
the theorems below relate the loop embeddings to them. -/

/-- Extract the payload of a successful evaluation (`[]` on error). -/
def okD (e : Except String (List (Option ℚ))) : List (Option ℚ) :=
  match e with
  | .ok l => l
  | .error _ => []

/-- Spec EMA recurrence: `EMA₀ = price₀`,
`EMAᵢ = α·priceᵢ + (1−α)·EMAᵢ₋₁`. -/
def emaAt (alpha : ℚ) (prices : List ℚ) : ℕ → ℚ
  | 0 => prices.getD 0 0
  | k + 1 => alpha * prices.getD (k + 1) 0 + (1 - alpha) * emaAt alpha prices k

/-- Consecutive price differences `Δᵢ = priceᵢ₊₁ − priceᵢ`. -/
def diffsOf : List ℚ → List ℚ
  | p :: q :: rest => (q - p) :: diffsOf (q :: rest)
  | _ => []

/-- Spec per-step gain `max(Δ, 0)`. -/
def gainOf (d : ℚ) : ℚ := if 0 < d then d else 0

/-- Spec per-step loss `max(−Δ, 0)`. -/
def lossOf (d : ℚ) : ℚ := if d < 0 then -d else 0

/-- The gain sequence of a price series. -/
def gainsOf (prices : List ℚ) : List ℚ := (diffsOf prices).map gainOf

/-- The loss sequence of a price series. -/
def lossesOf (prices : List ℚ) : List ℚ := (diffsOf prices).map lossOf

/-- Spec RSI running average over the sequence `xs` of gains (or
losses): seeded at the `N`-th available difference with the simple mean
of the first `N` entries, then Wilder smoothing
`avg = avg·(1−1/N) + x·(1/N)`; `avgSpec ws xs k` is the value after the
seed plus `k` Wilder steps (consuming `xs` entries `ws + k - 1` …). -/
def avgSpec (ws : ℕ) (xs : List ℚ) : ℕ → ℚ
  | 0 => (xs.take ws).sum / (ws : ℚ)
  | k + 1 => avgSpec ws xs k * (1 - 1 / (ws : ℚ)) +
      xs.getD (ws + k) 0 * (1 / (ws : ℚ))

/-- The RSI value the spec prescribes for output position `i ≥ N`. -/
def rsiSpecAt (ws : ℕ) (prices : List ℚ) (i : ℕ) : ℚ :=
  if avgSpec ws (lossesOf prices) (i - ws) = 0 then 100
  else 100 - 100 / (1 + avgSpec ws (gainsOf prices) (i - ws) /
    avgSpec ws (lossesOf prices) (i - ws))

/-- Is a signal one of the two RSI threshold signals? -/
def isRsiSignal (s : TradingSignal) : Bool :=
  match s.signal_type with
  | .Oversold => true
  | .Overbought => true
  | _ => false

/-- The loop state of the batch RSI evaluator after consuming the first
`m` prices of a non-null series, expressed through the spec-side
sequences: the buffered values/gains/losses are prefixes, and once the
seed has happened (`m ≥ N + 1`) the averages follow `avgSpec`. -/
def rsiBatchState (ws : ℕ) (prices : List ℚ) (m : ℕ) : RsiLoopState :=
  ⟨prices.take m,
   (gainsOf prices).take (m - 1),
   (lossesOf prices).take (m - 1),
   if ws + 1 ≤ m then avgSpec ws (gainsOf prices) (m - 1 - ws) else 0,
   if ws + 1 ≤ m then avgSpec ws (lossesOf prices) (m - 1 - ws) else 0⟩

/- ## General list helpers -/

theorem take_append_getD {α : Type _} (l : List α) (d : α) (m : ℕ)
    (h : m < l.length) : l.take m ++ [l.getD m d] = l.take (m + 1) := by
  induction l generalizing m with
  | nil => simp at h
  | cons a l ih =>
    cases m with
    | zero => simp [List.getD]
    | succ m =>
      simp only [List.take_succ_cons, List.getD_cons_succ, List.cons_append,
        List.cons.injEq, true_and]
      exact ih m (by simpa using h)

theorem drop_eq_getD_cons {α : Type _} (l : List α) (d : α) (m : ℕ)
    (h : m < l.length) : l.drop m = l.getD m d :: l.drop (m + 1) := by
  induction l generalizing m with
  | nil => simp at h
  | cons a l ih =>
    cases m with
    | zero => simp [List.getD]
    | succ m =>
      simp only [List.drop_succ_cons, List.getD_cons_succ]
      exact ih m (by simpa using h)

theorem getD_map {α β : Type _} (f : α → β) (l : List α) (d : α) (k : ℕ)
    (h : k < l.length) : (l.map f).getD k (f d) = f (l.getD k d) := by
  induction l generalizing k with
  | nil => simp at h
  | cons a l ih =>
    cases k with
    | zero => simp [List.getD]
    | succ m =>
      simp only [List.map_cons, List.getD_cons_succ]
      exact ih m (by simpa using h)

theorem getD_range_map {α : Type _} (f : ℕ → α) (n k : ℕ) (d : α)
    (h : k < n) : ((List.range n).map f).getD k d = f k := by
  rw [List.getD_eq_getElem?_getD, List.getElem?_map, List.getElem?_range h]
  rfl

theorem length_take_of_le {α : Type _} {l : List α} {m : ℕ}
    (h : m ≤ l.length) : (l.take m).length = m := by
  simp [List.length_take, Nat.min_eq_left h]

/-- `i64AsUsize` is the identity on natural numbers below 2^64. -/
theorem i64AsUsize_coe (n : ℕ) (h : (n : ℤ) < 2 ^ 64) :
    i64AsUsize (n : ℤ) = n := by
  unfold i64AsUsize
  omega

/- ## SMA: pointwise characterization of the row loop -/

theorem smaStep_take (ws : ℕ) (prices : List ℚ) (m : ℕ)
    (h : m < prices.length) :
    smaStep ws (prices.take m) (some (prices.getD m 0)) =
      (prices.take (m + 1),
        if ws ≤ m + 1 then
          some (((prices.take (m + 1)).drop (m + 1 - ws)).sum / (ws : ℚ))
        else none) := by
  have h2 : (prices.take (m + 1)).length = m + 1 := length_take_of_le h
  simp only [smaStep, arrowValue, Option.getD_some,
    take_append_getD prices 0 m h, h2]
  split <;> simp

theorem smaLoop_take (ws : ℕ) (prices : List ℚ) :
    ∀ m, (smaLoop ws (prices.take m) ((prices.drop m).map some)).2 =
      (List.range (prices.length - m)).map (fun j =>
        if ws ≤ m + j + 1 then
          some (((prices.take (m + j + 1)).drop (m + j + 1 - ws)).sum /
            (ws : ℚ))
        else none) := by
  suffices H : ∀ n m, prices.length - m = n →
      (smaLoop ws (prices.take m) ((prices.drop m).map some)).2 =
      (List.range (prices.length - m)).map (fun j =>
        if ws ≤ m + j + 1 then
          some (((prices.take (m + j + 1)).drop (m + j + 1 - ws)).sum /
            (ws : ℚ))
        else none) by
    intro m; exact H (prices.length - m) m rfl
  intro n
  induction n with
  | zero =>
    intro m hm
    have hle : prices.length ≤ m := by omega
    simp [List.drop_eq_nil_of_le hle, hm, smaLoop]
  | succ n ih =>
    intro m hm
    have hmlt : m < prices.length := by omega
    have hn : prices.length - (m + 1) = n := by omega
    rw [drop_eq_getD_cons prices 0 m hmlt]
    simp only [List.map_cons, smaLoop, smaStep_take ws prices m hmlt,
      ih (m + 1) hn, hm, hn, List.range_succ_eq_map, List.map_cons,
      List.map_map]
    refine List.cons_eq_cons.mpr ⟨by simp, ?_⟩
    apply List.map_congr_left
    intro j _
    simp only [Function.comp_apply, Nat.succ_eq_add_one]
    have e : m + (j + 1) + 1 = m + 1 + j + 1 := by omega
    rw [e]

/- ## EMA: pointwise characterization of the row loop -/

theorem emaLoop_take (alpha : ℚ) (prices : List ℚ) :
    ∀ m, (emaLoop alpha
        (if m = 0 then none else some (emaAt alpha prices (m - 1)))
        ((prices.drop m).map some)).2 =
      (List.range (prices.length - m)).map (fun j =>
        some (emaAt alpha prices (m + j))) := by
  suffices H : ∀ n m, prices.length - m = n →
      (emaLoop alpha
        (if m = 0 then none else some (emaAt alpha prices (m - 1)))
        ((prices.drop m).map some)).2 =
      (List.range (prices.length - m)).map (fun j =>
        some (emaAt alpha prices (m + j))) by
    intro m; exact H (prices.length - m) m rfl
  intro n
  induction n with
  | zero =>
    intro m hm
    have hle : prices.length ≤ m := by omega
    simp [List.drop_eq_nil_of_le hle, hm, emaLoop]
  | succ n ih =>
    intro m hm
    have hmlt : m < prices.length := by omega
    have hn : prices.length - (m + 1) = n := by omega
    have hstep :
        emaStep alpha
          (if m = 0 then none else some (emaAt alpha prices (m - 1)))
          (some (prices.getD m 0)) =
        (some (emaAt alpha prices m), some (emaAt alpha prices m)) := by
      cases m with
      | zero => simp [emaStep, arrowValue, emaAt]
      | succ k => simp [emaStep, arrowValue, emaAt]
    have ihm := ih (m + 1) hn
    simp only [show m + 1 ≠ 0 from Nat.succ_ne_zero m, if_false,
      Nat.add_sub_cancel] at ihm
    rw [drop_eq_getD_cons prices 0 m hmlt]
    simp only [List.map_cons, emaLoop, hstep, ihm, hm, hn,
      List.range_succ_eq_map, List.map_cons, List.map_map]
    refine List.cons_eq_cons.mpr ⟨by simp, ?_⟩
    apply List.map_congr_left
    intro j _
    simp only [Function.comp_apply, Nat.succ_eq_add_one]
    have e : m + (j + 1) = m + 1 + j := by omega
    rw [e]

/- ## Claim theorems -/

/-- C6: for all window sizes `N ≥ 1` and all sequences of non-null
prices, the batch SMA output at position `i` is null for `i < N − 1` and
the exact arithmetic mean of the last `N` prices for `i ≥ N − 1`. -/
theorem C6_sma_batch_correct (ws : ℕ) (prices : List ℚ)
    (_hw : 1 ≤ ws) (hr : (ws : ℤ) < 2 ^ 64) :
    (SmaPartitionEvaluator.evaluate_all .new (prices.map some)
        [some (ws : ℤ)]).2 =
      .ok ((List.range prices.length).map (fun i =>
        if i + 1 < ws then none
        else
          some (((prices.take (i + 1)).drop (i + 1 - ws)).sum /
            (ws : ℚ)))) := by
  have hf : findWindow [some (ws : ℤ)] = some (ws : ℤ) := rfl
  have h0 := smaLoop_take ws prices 0
  simp only [List.take_zero, List.drop_zero, Nat.sub_zero, Nat.zero_add] at h0
  simp only [SmaPartitionEvaluator.evaluate_all, hf,
    i64AsUsize_coe ws hr, h0, Except.ok.injEq]
  apply List.map_congr_left
  intro i _
  by_cases hc : ws ≤ i + 1
  · simp [hc, show ¬(i + 1 < ws) by omega]
  · simp [hc, show i + 1 < ws by omega]

/-- Witness for C6 at `N = 3`, prices `[1,…,10]`: the spec's example
output `[null, null, 2, 3, 4, 5, 6, 7, 8, 9]`. -/
theorem C6_sma_batch_correct_witness :
    (1 ≤ 3 ∧ ((3 : ℕ) : ℤ) < 2 ^ 64) ∧
    (SmaPartitionEvaluator.evaluate_all .new
        (([1, 2, 3, 4, 5, 6, 7, 8, 9, 10] : List ℚ).map some)
        [some ((3 : ℕ) : ℤ)]).2 =
      .ok [none, none, some 2, some 3, some 4, some 5, some 6, some 7,
        some 8, some 9] := by
  refine ⟨⟨by norm_num, by norm_num⟩, ?_⟩
  rw [C6_sma_batch_correct 3 [1, 2, 3, 4, 5, 6, 7, 8, 9, 10]
    (by norm_num) (by norm_num)]
  norm_num [List.range_succ]

/-- C7: for every window size `N ≥ 1` and every non-empty sequence of
non-null prices, the batch EMA output is present at every position,
`EMA₀` equals the first price exactly (`emaAt α prices 0`), and each
subsequent output follows `EMAᵢ = α·priceᵢ + (1−α)·EMAᵢ₋₁` with
`α = 2/(N+1)` (the recurrence `emaAt`). -/
theorem C7_ema_batch_correct (ws : ℕ) (prices : List ℚ)
    (_hw : 1 ≤ ws) (hr : (ws : ℤ) < 2 ^ 64) (_hne : prices ≠ []) :
    (EmaPartitionEvaluator.evaluate_all .new (prices.map some)
        [some (ws : ℤ)]).2 =
      .ok ((List.range prices.length).map (fun i =>
        some (emaAt (2 / ((ws : ℚ) + 1)) prices i))) := by
  have hf : findWindow [some (ws : ℤ)] = some (ws : ℤ) := rfl
  have h0 := emaLoop_take (2 / ((ws : ℚ) + 1)) prices 0
  simp only [List.drop_zero, Nat.sub_zero, Nat.zero_add,
    eq_self_iff_true, if_true] at h0
  simp only [EmaPartitionEvaluator.evaluate_all, hf,
    i64AsUsize_coe ws hr, h0]

/-- Witness for C7 at `N = 3`, prices `[10,12,13,12,15]`: `α = 1/2` and
the spec's example output `[10, 11, 12, 12, 13.5]`. -/
theorem C7_ema_batch_correct_witness :
    (1 ≤ 3 ∧ ((3 : ℕ) : ℤ) < 2 ^ 64 ∧
      ([10, 12, 13, 12, 15] : List ℚ) ≠ []) ∧
    (EmaPartitionEvaluator.evaluate_all .new
        (([10, 12, 13, 12, 15] : List ℚ).map some)
        [some ((3 : ℕ) : ℤ)]).2 =
      .ok [some 10, some 11, some 12, some 12, some (27 / 2)] := by
  refine ⟨⟨by norm_num, by norm_num, by simp⟩, ?_⟩
  rw [C7_ema_batch_correct 3 [10, 12, 13, 12, 15]
    (by norm_num) (by norm_num) (by simp)]
  norm_num [List.range_succ, emaAt, List.getD]

/-- The RSI row loop's outputs do not depend on the incoming `avg_gain` /
`avg_loss` fields as long as fewer than `window_size` gains are buffered
(for `window_size ≥ 1` that is the situation after the reset performed by
`evaluate_all`, which clears the lists but not the averages). -/
theorem rsiLoop_avg_irrel (ws : ℕ) (_hw : 1 ≤ ws) :
    ∀ (input : List (Option ℚ)) (vals g l : List ℚ) (ag al ag' al' : ℚ),
      g.length < ws →
      (rsiLoop ws ⟨vals, g, l, ag, al⟩ input).2 =
        (rsiLoop ws ⟨vals, g, l, ag', al'⟩ input).2 := by
  intro input
  induction input with
  | nil => intros; rfl
  | cons slot rest ih =>
    intro vals g l ag al ag' al' hgl
    simp only [rsiLoop, rsiStep]
    split_ifs <;>
      first
      | rfl
      | (refine List.cons_eq_cons.mpr ⟨rfl, ?_⟩
         exact ih _ _ _ _ _ _ _ hgl)
      | (refine List.cons_eq_cons.mpr ⟨rfl, ?_⟩
         apply ih
         simp only [List.length_append, List.length_cons,
           List.length_nil] at *
         omega)
      | (exfalso
         simp only [List.length_append, List.length_cons,
           List.length_nil] at *
         omega)

/-- C2 (code evidence): a null price sample is NOT propagated as a null
output and DOES corrupt the recurrence state: with `N = 1` and input
`[5.0, null]` the SMA evaluator emits `[5, 0]` (the null slot is read as
`0.0` because `value(i).into()` is always `Some`) and pushes `0` into its
buffer, where the claim demands output `[5, null]` and an unchanged
buffer `[5]`. -/
theorem C2_null_not_propagated :
    (SmaPartitionEvaluator.evaluate_all .new [some 5, none] [some 1]).2 =
      .ok [some 5, some 0] ∧
    (SmaPartitionEvaluator.evaluate_all .new [some 5, none]
        [some 1]).1.values = [5, 0] := by
  constructor <;>
    norm_num [SmaPartitionEvaluator.evaluate_all, smaLoop, smaStep,
      arrowValue, findWindow, SmaPartitionEvaluator.new,
      show i64AsUsize 1 = 1 by decide]

/-- C3 (counterexample): the MACD evaluator does not reset its EMA state
at the start of `evaluate_all`.  Running partition `[1.0]` and then
partition `[3.0]` through the same instance yields `[56/351]` for the
second partition, while a fresh instance on `[3.0]` yields `[0]`. -/
theorem C3_macd_state_leak :
    (MacdPartitionEvaluator.evaluate_all
        (MacdPartitionEvaluator.evaluate_all .new [some 1]).1 [some 3]).2 =
      .ok [some (56 / 351)] ∧
    (MacdPartitionEvaluator.evaluate_all .new [some 3]).2 =
      .ok [some 0] ∧
    ((56 : ℚ) / 351) ≠ 0 := by
  refine ⟨?_, ?_, by norm_num⟩ <;>
    norm_num [MacdPartitionEvaluator.evaluate_all, macdLoop,
      MacdPartitionEvaluator.update_ema, arrowValue,
      MacdPartitionEvaluator.new]

/-- C3 (amended): the SMA, EMA and RSI evaluators do reset all state
that can influence the output at the start of `evaluate_all` (for RSI
provided the window size is at least 1): the outputs are identical for
every pair of incoming instance states, i.e. no leakage across
partitions.  (MACD is excluded: see `C3_macd_state_leak`.) -/
theorem C3_no_state_leak_sma_ema_rsi
    (v : List (Option ℚ)) (windows : List (Option ℤ)) (w : ℤ)
    (hfw : findWindow windows = some w) (hw1 : 1 ≤ i64AsUsize w)
    (s s' : SmaPartitionEvaluator) (t t' : EmaPartitionEvaluator)
    (u u' : RsiPartitionEvaluator) :
    (s.evaluate_all v windows).2 = (s'.evaluate_all v windows).2 ∧
    (t.evaluate_all v windows).2 = (t'.evaluate_all v windows).2 ∧
    (u.evaluate_all v windows).2 = (u'.evaluate_all v windows).2 := by
  refine ⟨?_, ?_, ?_⟩
  · simp [SmaPartitionEvaluator.evaluate_all, hfw]
  · simp [EmaPartitionEvaluator.evaluate_all, hfw]
  · simp only [RsiPartitionEvaluator.evaluate_all, hfw]
    exact congrArg Except.ok (rsiLoop_avg_irrel (i64AsUsize w) hw1 v [] [] []
      u.avg_gain u.avg_loss u'.avg_gain u'.avg_loss (by simpa using hw1))

/-- Witness for C3 (amended) at window 2, two arbitrary distinct prior
states. -/
theorem C3_no_state_leak_witness :
    findWindow [some 2] = some 2 ∧ 1 ≤ i64AsUsize 2 ∧
    ((⟨[7], 9⟩ : SmaPartitionEvaluator).evaluate_all [some 4, some 6]
        [some 2]).2 =
      ((SmaPartitionEvaluator.new).evaluate_all [some 4, some 6]
        [some 2]).2 ∧
    ((⟨3, [5], [1], [2], 4, 5⟩ : RsiPartitionEvaluator).evaluate_all
        [some 4, some 6] [some 2]).2 =
      ((RsiPartitionEvaluator.new).evaluate_all [some 4, some 6]
        [some 2]).2 := by
  have h := C3_no_state_leak_sma_ema_rsi [some 4, some 6] [some 2] 2
    rfl (by decide) ⟨[7], 9⟩ .new .new .new
    ⟨3, [5], [1], [2], 4, 5⟩ .new
  exact ⟨rfl, by decide, h.1, h.2.2⟩

/-- C4 (counterexample): a window-size argument of 0 is NOT rejected:
all three windowed evaluators return `Ok` for window column `[0]`, and
EMA silently computes with `alpha = 2/(0+1) = 2` rather than failing. -/
theorem C4_window_zero_accepted :
    ((SmaPartitionEvaluator.evaluate_all .new [some 1] [some 0]).2).isOk
      = true ∧
    ((EmaPartitionEvaluator.evaluate_all .new [some 1] [some 0]).2).isOk
      = true ∧
    ((RsiPartitionEvaluator.evaluate_all .new [some 1] [some 0]).2).isOk
      = true ∧
    (EmaPartitionEvaluator.evaluate_all .new [some 1] [some 0]).1.alpha
      = 2 := by
  refine ⟨rfl, rfl, rfl, ?_⟩
  norm_num [EmaPartitionEvaluator.evaluate_all, findWindow,
    show i64AsUsize 0 = 0 by decide]

/-- C4 (amended): an entirely-null window-size column is rejected as a
configuration error by SMA, EMA and RSI, surfaced before any state
mutation (the instance state is returned untouched) and with no default
window substituted. -/
theorem C4_null_window_rejected
    (s₁ : SmaPartitionEvaluator) (s₂ : EmaPartitionEvaluator)
    (s₃ : RsiPartitionEvaluator) (v : List (Option ℚ))
    (windows : List (Option ℤ)) (h : findWindow windows = none) :
    s₁.evaluate_all v windows = (s₁, .error "Window size cannot be null") ∧
    s₂.evaluate_all v windows = (s₂, .error "Window size cannot be null") ∧
    s₃.evaluate_all v windows = (s₃, .error "Window size cannot be null") := by
  refine ⟨?_, ?_, ?_⟩ <;>
    simp [SmaPartitionEvaluator.evaluate_all,
      EmaPartitionEvaluator.evaluate_all,
      RsiPartitionEvaluator.evaluate_all, h]

/-- Witness for C4 (amended) on the all-null window column `[none]`. -/
theorem C4_null_window_rejected_witness :
    findWindow [none] = none ∧
    (SmaPartitionEvaluator.new).evaluate_all [some 1] [none] =
      (.new, .error "Window size cannot be null") := by
  exact ⟨rfl, (C4_null_window_rejected .new .new .new [some 1] [none] rfl).1⟩

/-- C5 (code evidence): the volume-spike strength is NOT clamped at 1:
a snapshot with `volume_ratio = 8` produces a `VolumeSpike` signal of
strength `(8−2)/3 = 2`, while the claim demands
`min((8−2)/3, 1) = 1`. -/
theorem C5_volume_spike_unclamped :
    detect_signals
        { price := 100, volume := 5000, sma := none, ema := none,
          rsi := none, volume_sma := some 1000, volume_ratio := some 8 } =
      [⟨.VolumeSpike, 2, 100⟩] ∧
    ((2 : ℚ) ≠ min ((8 - 2) / 3 : ℚ) 1) := by
  constructor
  · norm_num [detect_signals]
  · norm_num

/-- If strictly fewer values than the window size will ever be buffered,
the SMA row loop emits null at every position. -/
theorem smaLoop_all_none (ws : ℕ) :
    ∀ (input : List (Option ℚ)) (vals : List ℚ),
      vals.length + input.length < ws →
      (smaLoop ws vals input).2 = List.replicate input.length none := by
  intro input
  induction input with
  | nil => intros; rfl
  | cons slot rest ih =>
    intro vals h
    have hlen : ¬ ws ≤ (vals ++ [arrowValue slot]).length := by
      simp only [List.length_append, List.length_cons, List.length_nil]
      simp only [List.length_cons] at h
      omega
    simp only [smaLoop, smaStep, hlen, if_false, List.length_cons,
      List.replicate_succ]
    refine List.cons_eq_cons.mpr ⟨rfl, ?_⟩
    apply ih
    simp only [List.length_append, List.length_cons, List.length_nil]
    simp only [List.length_cons] at h
    omega

/-- C10: a negative `i64` window size `w` is accepted, reinterpreted by
`as usize` as `w mod 2^64 ≥ 2^63`: the SMA evaluator then returns all
nulls on any series shorter than 2^63 rows, and the EMA evaluator
silently computes with smoothing factor `2 / ((w mod 2^64) + 1)` instead
of reporting a configuration error (RSI succeeds as well). -/
theorem C10_negative_window (w : ℤ) (prices : List (Option ℚ))
    (hlo : -(2 ^ 63) ≤ w) (hneg : w < 0)
    (hlen : prices.length < 2 ^ 63) :
    (SmaPartitionEvaluator.evaluate_all .new prices [some w]).2 =
      .ok (List.replicate prices.length none) ∧
    ((EmaPartitionEvaluator.evaluate_all .new prices [some w]).2).isOk
      = true ∧
    (EmaPartitionEvaluator.evaluate_all .new prices [some w]).1.alpha =
      2 / ((i64AsUsize w : ℚ) + 1) ∧
    ((RsiPartitionEvaluator.evaluate_all .new prices [some w]).2).isOk
      = true ∧
    2 ^ 63 ≤ i64AsUsize w := by
  have hf : findWindow [some w] = some w := rfl
  have hws : 2 ^ 63 ≤ i64AsUsize w := by unfold i64AsUsize; omega
  refine ⟨?_, ?_, ?_, ?_, hws⟩
  · simp only [SmaPartitionEvaluator.evaluate_all, hf]
    exact congrArg Except.ok (smaLoop_all_none (i64AsUsize w) prices []
      (by simp only [List.length_nil, Nat.zero_add]; omega))
  · simp only [EmaPartitionEvaluator.evaluate_all, hf]
    rfl
  · simp only [EmaPartitionEvaluator.evaluate_all, hf]
  · simp only [RsiPartitionEvaluator.evaluate_all, hf]
    rfl

/-- Witness for C10 at `w = -1` (cast to `2^64 − 1`) on `[1, 2]`: no
error, SMA output all null. -/
theorem C10_negative_window_witness :
    ((-(2 ^ 63) : ℤ) ≤ -1 ∧ (-1 : ℤ) < 0 ∧
      ([some (1 : ℚ), some 2] : List (Option ℚ)).length < 2 ^ 63) ∧
    (SmaPartitionEvaluator.evaluate_all .new [some 1, some 2]
        [some (-1)]).2 = .ok [none, none] := by
  refine ⟨⟨by norm_num, by norm_num, by norm_num⟩, ?_⟩
  have h := C10_negative_window (-1) [some 1, some 2]
    (by norm_num) (by norm_num) (by norm_num)
  simpa using h.1

/-- C9: with a present RSI value `r ∈ [0, 100]`, the detector emits an
oversold signal of strength `(30 − r)/30` exactly when `r < 30`, an
overbought signal of strength `(r − 70)/30` exactly when `r > 70`,
nothing for `r ∈ [30, 70]`, and any emitted RSI-signal strength lies in
`(0, 1]`. -/
theorem C9_rsi_signals (ind : StreamingIndicatorValues) (r : ℚ)
    (hr : ind.rsi = some r) (h0 : 0 ≤ r) (h100 : r ≤ 100) :
    ((detect_signals ind).filter isRsiSignal =
      if r < 30 then [⟨.Oversold, (30 - r) / 30, ind.price⟩]
      else if 70 < r then [⟨.Overbought, (r - 70) / 30, ind.price⟩]
      else []) ∧
    (∀ sig ∈ (detect_signals ind).filter isRsiSignal,
      0 < sig.strength ∧ sig.strength ≤ 1) := by
  have hfilter : (detect_signals ind).filter isRsiSignal =
      if r < 30 then [⟨.Oversold, (30 - r) / 30, ind.price⟩]
      else if 70 < r then [⟨.Overbought, (r - 70) / 30, ind.price⟩]
      else [] := by
    simp only [detect_signals, hr, List.filter_append]
    have hvol : (match ind.volume_ratio with
        | some volume_ratio =>
          if 2 < volume_ratio then
            [(⟨.VolumeSpike, (volume_ratio - 2) / 3, ind.price⟩ :
              TradingSignal)]
          else []
        | none => []).filter isRsiSignal = [] := by
      cases ind.volume_ratio with
      | none => rfl
      | some vr =>
        by_cases h : (2 : ℚ) < vr <;> simp [h, isRsiSignal]
    have hcross : (match ind.sma, ind.ema with
        | some sma, some ema =>
          if sma * (1002 / 1000) < ema then
            [(⟨.BullishCrossover, min |(ema - sma) / sma| 1, ind.price⟩ :
              TradingSignal)]
          else if ema < sma * (998 / 1000) then
            [(⟨.BearishCrossover, min |(ema - sma) / sma| 1, ind.price⟩ :
              TradingSignal)]
          else []
        | _, _ => []).filter isRsiSignal = [] := by
      cases ind.sma with
      | none => rfl
      | some sma =>
        cases ind.ema with
        | none => rfl
        | some ema =>
          by_cases h1 : sma * (1002 / 1000) < ema
          · simp [h1, isRsiSignal]
          · by_cases h2 : ema < sma * (998 / 1000) <;>
              simp [h1, h2, isRsiSignal]
    rw [hvol, hcross]
    by_cases h30 : r < 30
    · simp [h30, isRsiSignal]
    · by_cases h70 : (70 : ℚ) < r <;> simp [h30, h70, isRsiSignal]
  refine ⟨hfilter, ?_⟩
  intro sig hsig
  rw [hfilter] at hsig
  by_cases h30 : r < 30
  · simp only [h30, if_true, List.mem_singleton] at hsig
    subst hsig
    constructor
    · exact div_pos (by linarith) (by norm_num)
    · rw [div_le_one (by norm_num : (0 : ℚ) < 30)]
      linarith
  · by_cases h70 : (70 : ℚ) < r
    · simp only [h30, h70, if_false, if_true, List.mem_singleton] at hsig
      subst hsig
      constructor
      · exact div_pos (by linarith) (by norm_num)
      · rw [div_le_one (by norm_num : (0 : ℚ) < 30)]
        linarith
    · simp [h30, h70] at hsig

theorem getD_take {α : Type _} (l : List α) (d : α) (n k : ℕ)
    (h : k < n) : (l.take n).getD k d = l.getD k d := by
  induction l generalizing n k with
  | nil => simp
  | cons a l ih =>
    cases n with
    | zero => omega
    | succ n =>
      cases k with
      | zero => simp [List.getD]
      | succ k =>
        simp only [List.take_succ_cons, List.getD_cons_succ]
        exact ih n k (by omega)

theorem diffsOf_length (l : List ℚ) : (diffsOf l).length = l.length - 1 := by
  induction l with
  | nil => rfl
  | cons p rest ih =>
    cases rest with
    | nil => rfl
    | cons q rest2 =>
      simp only [diffsOf, List.length_cons] at ih ⊢
      omega

theorem diffsOf_getD (l : List ℚ) : ∀ k, k + 1 < l.length →
    (diffsOf l).getD k 0 = l.getD (k + 1) 0 - l.getD k 0 := by
  induction l with
  | nil => intro k h; simp at h
  | cons p rest ih =>
    cases rest with
    | nil => intro k h; simp at h
    | cons q rest2 =>
      intro k h
      cases k with
      | zero => simp [diffsOf, List.getD]
      | succ k =>
        simp only [diffsOf, List.getD_cons_succ]
        exact ih k (by simpa using h)

theorem gainsOf_length (l : List ℚ) :
    (gainsOf l).length = l.length - 1 := by
  simp [gainsOf, diffsOf_length]

theorem lossesOf_length (l : List ℚ) :
    (lossesOf l).length = l.length - 1 := by
  simp [lossesOf, diffsOf_length]

theorem gainsOf_getD (l : List ℚ) (k : ℕ) (h : k + 1 < l.length) :
    (gainsOf l).getD k 0 = gainOf ((diffsOf l).getD k 0) := by
  have h0 : gainOf 0 = 0 := by simp [gainOf]
  rw [gainsOf, ← h0, getD_map gainOf (diffsOf l) 0 k
    (by rw [diffsOf_length]; omega), h0]

theorem lossesOf_getD (l : List ℚ) (k : ℕ) (h : k + 1 < l.length) :
    (lossesOf l).getD k 0 = lossOf ((diffsOf l).getD k 0) := by
  have h0 : lossOf 0 = 0 := by simp [lossOf]
  rw [lossesOf, ← h0, getD_map lossOf (diffsOf l) 0 k
    (by rw [diffsOf_length]; omega), h0]

/-- Witness for C9: RSI 25 at price 100 yields exactly one oversold
signal of strength `(30−25)/30 = 1/6`; RSI 50 yields no RSI signal. -/
theorem C9_rsi_signals_witness :
    (({ price := 100, volume := 1000, sma := none, ema := none,
        rsi := some 25, volume_sma := none, volume_ratio := none } :
        StreamingIndicatorValues).rsi = some 25 ∧
      (0 : ℚ) ≤ 25 ∧ (25 : ℚ) ≤ 100) ∧
    (detect_signals
        { price := 100, volume := 1000, sma := none, ema := none,
          rsi := some 25, volume_sma := none,
          volume_ratio := none }).filter isRsiSignal =
      [⟨.Oversold, 1 / 6, 100⟩] ∧
    (detect_signals
        { price := 100, volume := 1000, sma := none, ema := none,
          rsi := some 50, volume_sma := none,
          volume_ratio := none }).filter isRsiSignal = [] := by
  refine ⟨⟨rfl, by norm_num, by norm_num⟩, ?_, ?_⟩
  · have h := C9_rsi_signals
      { price := 100, volume := 1000, sma := none, ema := none,
        rsi := some 25, volume_sma := none, volume_ratio := none }
      25 rfl (by norm_num) (by norm_num)
    rw [h.1]
    norm_num
  · have h := C9_rsi_signals
      { price := 100, volume := 1000, sma := none, ema := none,
        rsi := some 50, volume_sma := none, volume_ratio := none }
      50 rfl (by norm_num) (by norm_num)
    rw [h.1]
    norm_num

/-- One batch-RSI loop step advances `rsiBatchState` and emits the
spec-prescribed output: null before position `N`, `rsiSpecAt` after. -/
theorem rsiStep_spec (ws : ℕ) (hw : 1 ≤ ws) (prices : List ℚ) (m : ℕ)
    (hm : m < prices.length) :
    rsiStep ws (rsiBatchState ws prices m) (some (prices.getD m 0)) =
      (rsiBatchState ws prices (m + 1),
        if m < ws then none else some (rsiSpecAt ws prices m)) := by
  cases m with
  | zero =>
    cases prices with
    | nil => simp at hm
    | cons a t =>
      have e2 : ¬ (ws + 1 ≤ 1) := by omega
      simp [rsiStep, rsiBatchState, arrowValue, List.getD,
        Nat.not_succ_le_zero, e2, show 0 < ws from hw]
  | succ k =>
    have hv : prices.take (k + 1) ++ [prices.getD (k + 1) 0] =
        prices.take (k + 2) := take_append_getD prices 0 (k + 1) hm
    have hvl : (prices.take (k + 2)).length = k + 2 := length_take_of_le hm
    have hprev : (prices.take (k + 2)).getD k 0 = prices.getD k 0 :=
      getD_take prices 0 (k + 2) k (by omega)
    have hdiff : (diffsOf prices).getD k 0 =
        prices.getD (k + 1) 0 - prices.getD k 0 :=
      diffsOf_getD prices k hm
    have hgain : (gainsOf prices).getD k 0 =
        gainOf ((diffsOf prices).getD k 0) := gainsOf_getD prices k hm
    have hloss : (lossesOf prices).getD k 0 =
        lossOf ((diffsOf prices).getD k 0) := lossesOf_getD prices k hm
    have hgt : (gainsOf prices).take k ++ [(gainsOf prices).getD k 0] =
        (gainsOf prices).take (k + 1) :=
      take_append_getD (gainsOf prices) 0 k (by rw [gainsOf_length]; omega)
    have hlt2 : (lossesOf prices).take k ++ [(lossesOf prices).getD k 0] =
        (lossesOf prices).take (k + 1) :=
      take_append_getD (lossesOf prices) 0 k (by rw [lossesOf_length]; omega)
    have hgl : ((gainsOf prices).take (k + 1)).length = k + 1 :=
      length_take_of_le (by rw [gainsOf_length]; omega)
    have hne1 : ¬ ((k : ℕ) + 2 = 1) := by omega
    simp only [rsiStep, rsiBatchState, arrowValue, Option.getD_some, hv, hvl,
      show k + 2 - 2 = k from rfl, show k + 2 - 1 = k + 1 from rfl,
      show k + 1 - 1 = k from rfl, hprev, hne1, if_false]
    rw [show prices.getD (k + 1) 0 - prices.getD k 0 =
      (diffsOf prices).getD k 0 from hdiff.symm]
    rw [show (if 0 < (diffsOf prices).getD k 0 then
        (diffsOf prices).getD k 0 else 0) = (gainsOf prices).getD k 0 from
      hgain.symm]
    rw [show (if (diffsOf prices).getD k 0 < 0 then
        -(diffsOf prices).getD k 0 else 0) = (lossesOf prices).getD k 0 from
      hloss.symm]
    rw [hgt, hlt2, hgl]
    by_cases hlt : k + 1 < ws
    · have e1 : ¬ (ws + 1 ≤ k + 1) := by omega
      have e2 : ¬ (ws + 1 ≤ k + 2) := by omega
      simp [hlt, e1, e2]
    · by_cases heq : k + 1 = ws
      · subst heq
        have e0 : k + 1 + 1 ≤ k + 2 := by omega
        have e1 : ¬ (k + 1 + 1 ≤ k + 1) := by omega
        have e7 : k + 1 - (k + 1) = 0 := by omega
        simp only [hlt, if_false, lt_irrefl, eq_self_iff_true, if_true,
          e0, e1, Prod.mk.injEq, RsiLoopState.mk.injEq]
        refine ⟨⟨by first | rfl | trivial, by first | rfl | trivial,
          by first | rfl | trivial, ?_, ?_⟩, ?_⟩
        · rw [e7, avgSpec]
        · rw [e7, avgSpec]
        · rw [rsiSpecAt, e7]
          rfl
      · have e1 : k + 1 + 1 ≤ k + 2 := by omega
        have e2 : ws + 1 ≤ k + 1 := by omega
        have e3 : ws + 1 ≤ k + 2 := by omega
        have e4 : k - ws + 1 = k + 1 - ws := by omega
        have e5 : ws + (k - ws) = k := by omega
        have e6 : ¬ (k + 1 < ws) := by omega
        simp only [hlt, heq, if_false, e2, e3, if_true,
          Prod.mk.injEq, RsiLoopState.mk.injEq]
        have hag : avgSpec ws (gainsOf prices) (k - ws) * (1 - 1 / (ws : ℚ)) +
            (gainsOf prices).getD k 0 * (1 / (ws : ℚ)) =
            avgSpec ws (gainsOf prices) (k + 1 - ws) := by
          rw [← e4, avgSpec, e5]
        have hal : avgSpec ws (lossesOf prices) (k - ws) * (1 - 1 / (ws : ℚ)) +
            (lossesOf prices).getD k 0 * (1 / (ws : ℚ)) =
            avgSpec ws (lossesOf prices) (k + 1 - ws) := by
          rw [← e4, avgSpec, e5]
        refine ⟨⟨by first | rfl | trivial, by first | rfl | trivial,
          by first | rfl | trivial, ?_, ?_⟩, ?_⟩
        · rw [hag]
        · rw [hal]
        · rw [hag, hal, rsiSpecAt]
          rfl

/-- Pointwise characterization of the batch RSI row loop from any
position `m`. -/
theorem rsiLoop_spec (ws : ℕ) (hw : 1 ≤ ws) (prices : List ℚ) :
    ∀ m, (rsiLoop ws (rsiBatchState ws prices m)
        ((prices.drop m).map some)).2 =
      (List.range (prices.length - m)).map (fun j =>
        if m + j < ws then none
        else some (rsiSpecAt ws prices (m + j))) := by
  suffices H : ∀ n m, prices.length - m = n →
      (rsiLoop ws (rsiBatchState ws prices m)
        ((prices.drop m).map some)).2 =
      (List.range (prices.length - m)).map (fun j =>
        if m + j < ws then none
        else some (rsiSpecAt ws prices (m + j))) by
    intro m; exact H (prices.length - m) m rfl
  intro n
  induction n with
  | zero =>
    intro m hm
    have hle : prices.length ≤ m := by omega
    simp [List.drop_eq_nil_of_le hle, hm, rsiLoop]
  | succ n ih =>
    intro m hm
    have hmlt : m < prices.length := by omega
    have hn : prices.length - (m + 1) = n := by omega
    rw [drop_eq_getD_cons prices 0 m hmlt]
    simp only [List.map_cons, rsiLoop, rsiStep_spec ws hw prices m hmlt,
      ih (m + 1) hn, hm, hn, List.range_succ_eq_map, List.map_cons,
      List.map_map]
    refine List.cons_eq_cons.mpr ⟨by simp, ?_⟩
    apply List.map_congr_left
    intro j _
    simp only [Function.comp_apply, Nat.succ_eq_add_one]
    have e : m + (j + 1) = m + 1 + j := by omega
    rw [e]

/-- C8: for every `N ≥ 1` and every sequence of non-null prices, the
batch RSI output is null at the first `N` positions; from position `N`
on it emits the RSI of the running averages that are seeded at the
`N`-th price difference with the simple means of the first `N` gains and
losses (`avgSpec _ _ 0`) and thereafter updated by Wilder smoothing
`avg·(1−1/N) + x·(1/N)`; the emitted value is exactly 100 whenever the
average loss is exactly 0, else `100 − 100/(1 + avgGain/avgLoss)`. -/
theorem C8_rsi_batch_correct (ws : ℕ) (prices : List ℚ)
    (hw : 1 ≤ ws) (hr : (ws : ℤ) < 2 ^ 64) :
    (RsiPartitionEvaluator.evaluate_all .new (prices.map some)
        [some (ws : ℤ)]).2 =
      .ok ((List.range prices.length).map (fun i =>
        if i < ws then none
        else some (if avgSpec ws (lossesOf prices) (i - ws) = 0 then 100
          else 100 - 100 / (1 + avgSpec ws (gainsOf prices) (i - ws) /
            avgSpec ws (lossesOf prices) (i - ws))))) := by
  have hf : findWindow [some (ws : ℤ)] = some (ws : ℤ) := rfl
  have h0 := rsiLoop_spec ws hw prices 0
  simp only [List.drop_zero, Nat.sub_zero, Nat.zero_add] at h0
  have hinit : rsiBatchState ws prices 0 =
      ⟨[], [], [], 0, 0⟩ := by
    simp [rsiBatchState, Nat.not_succ_le_zero]
  rw [hinit] at h0
  simp only [RsiPartitionEvaluator.evaluate_all, hf,
    i64AsUsize_coe ws hr, RsiPartitionEvaluator.new, h0, Except.ok.injEq]
  apply List.map_congr_left
  intro i _
  rfl

/-- Witness for C8 at `N = 2`, prices `[1, 2, 3]`: nulls at the first
two positions, then RSI exactly 100 because the average loss is 0. -/
theorem C8_rsi_batch_correct_witness :
    (1 ≤ 2 ∧ ((2 : ℕ) : ℤ) < 2 ^ 64) ∧
    (RsiPartitionEvaluator.evaluate_all .new
        (([1, 2, 3] : List ℚ).map some) [some ((2 : ℕ) : ℤ)]).2 =
      .ok [none, none, some 100] := by
  refine ⟨⟨by norm_num, by norm_num⟩, ?_⟩
  rw [C8_rsi_batch_correct 2 [1, 2, 3] (by norm_num) (by norm_num)]
  norm_num [List.range_succ, avgSpec, lossesOf, gainsOf, diffsOf,
    gainOf, lossOf]

/-- Pushing the next element onto a trailing-window buffer. -/
theorem push_buffer {α : Type _} (d : α) (xs : List α) (k m : ℕ)
    (hk : k ≤ m) (hm : m < xs.length) :
    (xs.take m).drop k ++ [xs.getD m d] = (xs.take (m + 1)).drop k := by
  have hlen : k ≤ (xs.take m).length := by
    rw [length_take_of_le (le_of_lt hm)]; exact hk
  rw [← take_append_getD xs d m hm, List.drop_append_of_le_length hlen]

/-- `emaAt` only looks at the prefix of the price list. -/
theorem emaAt_take (alpha : ℚ) (prices : List ℚ) (n k : ℕ) (h : k < n) :
    emaAt alpha (prices.take n) k = emaAt alpha prices k := by
  induction k with
  | zero =>
    simp only [emaAt]
    exact getD_take prices 0 n 0 h
  | succ k ih =>
    simp only [emaAt]
    rw [getD_take prices 0 n (k + 1) h, ih (by omega)]

/-- One `StreamingIndicators::update` step from the reachable state after
`m` ticks (price/volume buffers hold the trailing `min(m, N)` entries,
the EMA state is the batch EMA of the first `m` prices, the RSI fields
are arbitrary): the new buffers and EMA state are those after `m + 1`
ticks, and the emitted SMA/EMA agree with the batch formulas on the
first `m + 1` prices. -/
theorem streamUpdate_spec (ws : ℕ) (hw : 1 ≤ ws) (ticks : List MarketTick)
    (m : ℕ) (hm : m < ticks.length) (g l : List ℚ) (ag al : ℚ)
    (u : StreamingIndicators × StreamingIndicatorValues)
    (hu : u = StreamingIndicators.update
      ⟨ws, ((ticks.map MarketTick.price).take m).drop (m - ws),
       ((ticks.map MarketTick.volume).take m).drop (m - ws),
       (if m = 0 then none
        else some (emaAt (2 / ((ws : ℚ) + 1)) (ticks.map MarketTick.price)
          (m - 1))),
       g, l, ag, al⟩ (ticks.getD m ⟨0, 0⟩)) :
    u.1.window_size = ws ∧
    u.1.prices =
      ((ticks.map MarketTick.price).take (m + 1)).drop (m + 1 - ws) ∧
    u.1.volumes =
      ((ticks.map MarketTick.volume).take (m + 1)).drop (m + 1 - ws) ∧
    u.1.ema_value =
      some (emaAt (2 / ((ws : ℚ) + 1)) (ticks.map MarketTick.price) m) ∧
    u.2.sma = (if m + 1 < ws then none
      else some ((((ticks.map MarketTick.price).take (m + 1)).drop
        (m + 1 - ws)).sum / (ws : ℚ))) ∧
    u.2.ema =
      some (emaAt (2 / ((ws : ℚ) + 1)) (ticks.map MarketTick.price) m) := by
  subst hu
  have hPlen : (ticks.map MarketTick.price).length = ticks.length :=
    List.length_map _ _
  have hVlen : (ticks.map MarketTick.volume).length = ticks.length :=
    List.length_map _ _
  have htp : (ticks.getD m ⟨0, 0⟩).price =
      (ticks.map MarketTick.price).getD m 0 :=
    (getD_map MarketTick.price ticks ⟨0, 0⟩ m hm).symm
  have htv : (ticks.getD m ⟨0, 0⟩).volume =
      (ticks.map MarketTick.volume).getD m 0 :=
    (getD_map MarketTick.volume ticks ⟨0, 0⟩ m hm).symm
  have hpushP : ((ticks.map MarketTick.price).take m).drop (m - ws) ++
      [(ticks.map MarketTick.price).getD m 0] =
      ((ticks.map MarketTick.price).take (m + 1)).drop (m - ws) :=
    push_buffer 0 _ (m - ws) m (by omega) (by rw [hPlen]; exact hm)
  have hpushV : ((ticks.map MarketTick.volume).take m).drop (m - ws) ++
      [(ticks.map MarketTick.volume).getD m 0] =
      ((ticks.map MarketTick.volume).take (m + 1)).drop (m - ws) :=
    push_buffer 0 _ (m - ws) m (by omega) (by rw [hVlen]; exact hm)
  have hlenP : ((((ticks.map MarketTick.price).take (m + 1)).drop
      (m - ws))).length = m + 1 - (m - ws) := by
    rw [List.length_drop, length_take_of_le (by rw [hPlen]; omega)]
  have hema : (StreamingIndicators.calculate_ema
      ⟨ws, ((ticks.map MarketTick.price).take (m + 1)).drop (m + 1 - ws),
       ((ticks.map MarketTick.volume).take (m + 1)).drop (m + 1 - ws),
       (if m = 0 then none
        else some (emaAt (2 / ((ws : ℚ) + 1)) (ticks.map MarketTick.price)
          (m - 1))),
       g, l, ag, al⟩
      ((ticks.map MarketTick.price).getD m 0)) =
      (some (emaAt (2 / ((ws : ℚ) + 1)) (ticks.map MarketTick.price) m),
       some (emaAt (2 / ((ws : ℚ) + 1)) (ticks.map MarketTick.price) m)) := by
    cases m with
    | zero => simp [StreamingIndicators.calculate_ema, emaAt]
    | succ k => simp [StreamingIndicators.calculate_ema, emaAt]
  by_cases hcase : ws ≤ m
  · have hc : ws < m + 1 - (m - ws) := by omega
    have hd : ((((ticks.map MarketTick.price).take (m + 1)).drop
        (m - ws))).drop 1 =
        ((ticks.map MarketTick.price).take (m + 1)).drop (m + 1 - ws) := by
      rw [List.drop_drop]
      congr 1
      omega
    have hdV : ((((ticks.map MarketTick.volume).take (m + 1)).drop
        (m - ws))).drop 1 =
        ((ticks.map MarketTick.volume).take (m + 1)).drop (m + 1 - ws) := by
      rw [List.drop_drop]
      congr 1
      omega
    have hlen₂ : ((((ticks.map MarketTick.price).take (m + 1)).drop
        (m + 1 - ws))).length = ws := by
      rw [List.length_drop, length_take_of_le (by rw [hPlen]; omega)]
      omega
    have hnl : ¬ ((((ticks.map MarketTick.price).take (m + 1)).drop
        (m + 1 - ws))).length < ws := by rw [hlen₂]; omega
    have hm1 : ¬ (m + 1 < ws) := by omega
    simp only [StreamingIndicators.update, htp, htv, hpushP, hpushV,
      hlenP, hc, if_true, hd, hdV, StreamingIndicators.calculate_sma,
      hnl, if_false, hema, hlen₂, hm1, lt_self_iff_false]
    refine ⟨?_, ?_, ?_, ?_, ?_, ?_⟩ <;> first | trivial | rfl
  · have h0 : m - ws = 0 := by omega
    have h1 : m + 1 - ws = 0 := by omega
    rw [h0] at hpushP hpushV hlenP
    rw [h1] at hema
    have hc : ¬ (ws < m + 1) := by omega
    have hlen₃ : ((((ticks.map MarketTick.price).take (m + 1)).drop
        0)).length = m + 1 := by
      rw [List.length_drop, length_take_of_le (by rw [hPlen]; omega)]
      omega
    by_cases hm1 : m + 1 < ws
    · have hyes : ((((ticks.map MarketTick.price).take (m + 1)).drop
          0)).length < ws := by rw [hlen₃]; omega
      simp only [StreamingIndicators.update, htp, htv, h0, h1, hpushP,
        hpushV, hlenP, hc, if_false, StreamingIndicators.calculate_sma,
        hyes, if_true, hema, hm1, Nat.sub_zero]
      refine ⟨?_, ?_, ?_, ?_, ?_, ?_⟩ <;> first | trivial | rfl
    · have heq : m + 1 = ws := by omega
      have hno : ¬ ((((ticks.map MarketTick.price).take (m + 1)).drop
          0)).length < ws := by rw [hlen₃]; omega
      have hq : ((m + 1 : ℕ) : ℚ) = (ws : ℚ) := by rw [heq]
      simp only [StreamingIndicators.update, htp, htv, h0, h1, hpushP,
        hpushV, hlenP, hc, if_false, StreamingIndicators.calculate_sma,
        hno, hm1, hema, Nat.sub_zero, hq]
      refine ⟨?_, ?_, ?_, ?_, ?_, ?_⟩ <;> first | trivial | rfl

/-- The sequence of (SMA, EMA) pairs emitted by the streaming calculator
from the reachable state after `m` ticks, with arbitrary RSI state. -/
theorem streamRun_sma_ema (ws : ℕ) (hw : 1 ≤ ws) (ticks : List MarketTick) :
    ∀ m (g l : List ℚ) (ag al : ℚ),
      ((streamRun
        ⟨ws, ((ticks.map MarketTick.price).take m).drop (m - ws),
         ((ticks.map MarketTick.volume).take m).drop (m - ws),
         (if m = 0 then none
          else some (emaAt (2 / ((ws : ℚ) + 1)) (ticks.map MarketTick.price)
            (m - 1))),
         g, l, ag, al⟩
        (ticks.drop m)).2).map (fun v => (v.sma, v.ema)) =
      (List.range (ticks.length - m)).map (fun j =>
        (if m + j + 1 < ws then none
         else some ((((ticks.map MarketTick.price).take (m + j + 1)).drop
           (m + j + 1 - ws)).sum / (ws : ℚ)),
         some (emaAt (2 / ((ws : ℚ) + 1)) (ticks.map MarketTick.price)
           (m + j)))) := by
  suffices H : ∀ n m (g l : List ℚ) (ag al : ℚ), ticks.length - m = n →
      ((streamRun
        ⟨ws, ((ticks.map MarketTick.price).take m).drop (m - ws),
         ((ticks.map MarketTick.volume).take m).drop (m - ws),
         (if m = 0 then none
          else some (emaAt (2 / ((ws : ℚ) + 1)) (ticks.map MarketTick.price)
            (m - 1))),
         g, l, ag, al⟩
        (ticks.drop m)).2).map (fun v => (v.sma, v.ema)) =
      (List.range (ticks.length - m)).map (fun j =>
        (if m + j + 1 < ws then none
         else some ((((ticks.map MarketTick.price).take (m + j + 1)).drop
           (m + j + 1 - ws)).sum / (ws : ℚ)),
         some (emaAt (2 / ((ws : ℚ) + 1)) (ticks.map MarketTick.price)
           (m + j)))) by
    intro m g l ag al; exact H (ticks.length - m) m g l ag al rfl
  intro n
  induction n with
  | zero =>
    intro m g l ag al hm
    have hle : ticks.length ≤ m := by omega
    simp [List.drop_eq_nil_of_le hle, hm, streamRun]
  | succ n ih =>
    intro m g l ag al hm
    have hmlt : m < ticks.length := by omega
    have hn : ticks.length - (m + 1) = n := by omega
    rw [drop_eq_getD_cons ticks ⟨0, 0⟩ m hmlt]
    simp only [streamRun]
    rcases hru : StreamingIndicators.update
        ⟨ws, ((ticks.map MarketTick.price).take m).drop (m - ws),
         ((ticks.map MarketTick.volume).take m).drop (m - ws),
         (if m = 0 then none
          else some (emaAt (2 / ((ws : ℚ) + 1)) (ticks.map MarketTick.price)
            (m - 1))),
         g, l, ag, al⟩ (ticks.getD m ⟨0, 0⟩) with ⟨s', v'⟩
    obtain ⟨h1, h2, h3, h4, h5, h6⟩ :=
      streamUpdate_spec ws hw ticks m hmlt g l ag al _ hru.symm
    rcases s' with ⟨w', P', V', E', g', l', ag', al'⟩
    simp only at h1 h2 h3 h4 h5 h6
    subst h1
    subst h2
    subst h3
    subst h4
    have ihm := ih (m + 1) g' l' ag' al' hn
    simp only [Nat.succ_ne_zero, if_false, Nat.add_sub_cancel] at ihm
    simp only [List.map_cons, ihm, hm, hn, List.range_succ_eq_map,
      List.map_cons, List.map_map]
    refine List.cons_eq_cons.mpr ⟨by simp [h5, h6], ?_⟩
    apply List.map_congr_left
    intro j _
    simp only [Function.comp_apply, Nat.succ_eq_add_one]
    have e1 : m + (j + 1) + 1 = m + 1 + j + 1 := by omega
    have e2 : m + (j + 1) = m + 1 + j := by omega
    rw [e1, e2]

/-- C1 (amended): for every window size `N ≥ 1` and every tick sequence,
the streaming calculator's SMA and EMA at tick `k` are identical to the
batch partition evaluators run once over the first `k + 1` prices as a
single partition (position `k` of their output).  (RSI is excluded: see
`C1_rsi_stream_batch_diverge`.) -/
theorem C1_stream_batch_sma_ema (ws : ℕ) (ticks : List MarketTick)
    (hw : 1 ≤ ws) (hr : (ws : ℤ) < 2 ^ 64) :
    ((streamRun (StreamingIndicators.new ws) ticks).2).map
        (fun v => (v.sma, v.ema)) =
      (List.range ticks.length).map (fun k =>
        ((okD (SmaPartitionEvaluator.evaluate_all .new
            (((ticks.map MarketTick.price).take (k + 1)).map some)
            [some (ws : ℤ)]).2).getD k none,
         (okD (EmaPartitionEvaluator.evaluate_all .new
            (((ticks.map MarketTick.price).take (k + 1)).map some)
            [some (ws : ℤ)]).2).getD k none)) := by
  have hfw : findWindow [some (ws : ℤ)] = some (ws : ℤ) := rfl
  have h0 := streamRun_sma_ema ws hw ticks 0 [] [] 0 0
  simp only [List.drop_zero, Nat.sub_zero, Nat.zero_add, List.take_zero,
    List.drop_nil, eq_self_iff_true, if_true] at h0
  rw [show StreamingIndicators.new ws =
    (⟨ws, [], [], none, [], [], 0, 0⟩ : StreamingIndicators) from rfl]
  rw [h0]
  apply List.map_congr_left
  intro k hk
  have hklen : k < ticks.length := List.mem_range.mp hk
  have hPlen : (ticks.map MarketTick.price).length = ticks.length :=
    List.length_map _ _
  have htl : ((ticks.map MarketTick.price).take (k + 1)).length = k + 1 :=
    length_take_of_le (by rw [hPlen]; omega)
  have htt : ((ticks.map MarketTick.price).take (k + 1)).take (k + 1) =
      (ticks.map MarketTick.price).take (k + 1) := by
    rw [List.take_take, Nat.min_self]
  -- batch SMA on the first k+1 prices, read at position k
  have hsma := smaLoop_take ws ((ticks.map MarketTick.price).take (k + 1)) 0
  simp only [List.take_zero, List.drop_zero, Nat.sub_zero, Nat.zero_add]
    at hsma
  -- batch EMA on the first k+1 prices, read at position k
  have hemal := emaLoop_take (2 / ((ws : ℚ) + 1))
    ((ticks.map MarketTick.price).take (k + 1)) 0
  simp only [List.drop_zero, Nat.sub_zero, Nat.zero_add,
    eq_self_iff_true, if_true] at hemal
  simp only [SmaPartitionEvaluator.evaluate_all,
    EmaPartitionEvaluator.evaluate_all, hfw, i64AsUsize_coe ws hr,
    hsma, hemal, okD, htl]
  rw [getD_range_map _ _ _ _ (by omega : k < k + 1),
    getD_range_map _ _ _ _ (by omega : k < k + 1)]
  rw [htt, emaAt_take _ _ _ _ (by omega : k < k + 1)]
  by_cases hc : ws ≤ k + 1
  · simp [hc, show ¬(k + 1 < ws) by omega]
  · simp [hc, show k + 1 < ws by omega]

/-- Witness for C1 (amended) at `N = 2` on two ticks: both sides equal
`[(null, EMA 1), (SMA 3/2, EMA 5/3)]`. -/
theorem C1_stream_batch_sma_ema_witness :
    (1 ≤ 2 ∧ ((2 : ℕ) : ℤ) < 2 ^ 64) ∧
    ((streamRun (StreamingIndicators.new 2)
        [⟨1, 10⟩, ⟨2, 20⟩]).2).map (fun v => (v.sma, v.ema)) =
      [(none, some 1), (some (3 / 2), some (5 / 3))] ∧
    (List.range ([⟨1, 10⟩, ⟨2, 20⟩] : List MarketTick).length).map (fun k =>
        ((okD (SmaPartitionEvaluator.evaluate_all .new
            (((([⟨1, 10⟩, ⟨2, 20⟩] : List MarketTick).map
              MarketTick.price).take (k + 1)).map some)
            [some ((2 : ℕ) : ℤ)]).2).getD k none,
         (okD (EmaPartitionEvaluator.evaluate_all .new
            (((([⟨1, 10⟩, ⟨2, 20⟩] : List MarketTick).map
              MarketTick.price).take (k + 1)).map some)
            [some ((2 : ℕ) : ℤ)]).2).getD k none)) =
      [(none, some 1), (some (3 / 2), some (5 / 3))] := by
  have h := C1_stream_batch_sma_ema 2 [⟨1, 10⟩, ⟨2, 20⟩]
    (by norm_num) (by norm_num)
  have hbatch : (List.range ([⟨1, 10⟩, ⟨2, 20⟩] :
      List MarketTick).length).map (fun k =>
        ((okD (SmaPartitionEvaluator.evaluate_all .new
            (((([⟨1, 10⟩, ⟨2, 20⟩] : List MarketTick).map
              MarketTick.price).take (k + 1)).map some)
            [some ((2 : ℕ) : ℤ)]).2).getD k none,
         (okD (EmaPartitionEvaluator.evaluate_all .new
            (((([⟨1, 10⟩, ⟨2, 20⟩] : List MarketTick).map
              MarketTick.price).take (k + 1)).map some)
            [some ((2 : ℕ) : ℤ)]).2).getD k none)) =
      [(none, some 1), (some (3 / 2), some (5 / 3))] := by
    norm_num [List.range_succ, SmaPartitionEvaluator.evaluate_all,
      EmaPartitionEvaluator.evaluate_all, findWindow, okD, smaLoop,
      smaStep, emaLoop, emaStep, arrowValue, SmaPartitionEvaluator.new,
      EmaPartitionEvaluator.new, List.getD,
      show i64AsUsize 2 = 2 by decide]
  exact ⟨⟨by norm_num, by norm_num⟩, h.trans hbatch, hbatch⟩

/-- C1 (counterexample): streaming RSI diverges from batch RSI.  With
window 2 and prices `[10, 9, 7, 9]`, the streaming calculator emits RSI
50 at the fourth tick (it re-seeds with simple averages because its
stored average gain is still 0), while the batch evaluator on the same
four prices emits `400/7 ≈ 57.14` at the fourth position (Wilder
smoothing from the seeded averages). -/
theorem C1_rsi_stream_batch_diverge :
    ((streamRun (StreamingIndicators.new 2)
        [⟨10, 0⟩, ⟨9, 0⟩, ⟨7, 0⟩, ⟨9, 0⟩]).2).map (fun v => v.rsi) =
      [none, none, some 0, some 50] ∧
    (RsiPartitionEvaluator.evaluate_all .new
        (([10, 9, 7, 9] : List ℚ).map some) [some 2]).2 =
      .ok [none, none, some 0, some (400 / 7)] ∧
    ((some (50 : ℚ) : Option ℚ) ≠ some (400 / 7)) := by
  refine ⟨?_, ?_, by norm_num⟩
  · norm_num [streamRun, StreamingIndicators.new,
      StreamingIndicators.update, StreamingIndicators.calculate_sma,
      StreamingIndicators.calculate_ema, StreamingIndicators.calculate_rsi,
      StreamingIndicators.calculate_volume_sma, List.getD]
  · norm_num [RsiPartitionEvaluator.evaluate_all, rsiLoop, rsiStep,
      calculate_rsi, arrowValue, findWindow, RsiPartitionEvaluator.new,
      List.getD, show i64AsUsize 2 = 2 by decide]

end DFF
